import Mathlib

/-!
Verification of the variable-elimination core of the gtsam inference
library: `Permutation` (Permutation.cpp), `VariableSlots`
(VariableSlots.cpp), the `Inference::Marginal` algorithm (inference.h),
and bias propagation in `ImuFactorBase::predict` (ImuFactorBase.h).
Machine integers (`Index`, i.e. `size_t`) are modelled as `Nat`; the
C++ `std::vector` writes are modelled by explicit list updates.
-/

namespace gtsam

/-- A `Permutation` holds its `rangeIndices_` vector, modelled as a list. -/
abbrev Permutation := List Nat

/-- Sequential array writes: `writeFrom r s xs` performs
`r[s] = xs[0]; r[s+1] = xs[1]; …`, the shape of the C++ loops
`for j: ret[nextVar++] = …` (writes past the end of `r` are dropped,
where the C++ would be out-of-bounds). -/
def writeFrom : List Nat → Nat → List Nat → List Nat
  | r, _, [] => r
  | r, s, x :: xs => writeFrom (r.set s x) (s + 1) xs

/-- An indexed write loop `for j in [0,m): r[f j] = g j`; later writes win,
as in the C++ vectors. -/
def writeLoop (r : List Nat) (f g : Nat → Nat) (m : Nat) : List Nat :=
  (List.range m).foldl (fun acc j => acc.set (f j) (g j)) r

namespace Permutation

/-- `Permutation::Identity(nVars)`: `ret[i] = i` for every `i < nVars`. -/
def Identity (nVars : Nat) : Permutation := List.range nVars

/-- `Permutation::PullToFront(toFront, size)`: the first loop writes
`ret[j] = toFront[j]` for `j < toFront.size()` and marks the mask
`pulled` exactly at the values occurring in `toFront`; the second loop
scans `j = 0..size-1` ascending and writes each unpulled `j` at
`ret[nextVar++]` starting from `nextVar = toFront.size()`. -/
def PullToFront (toFront : List Nat) (size : Nat) : Permutation :=
  writeFrom (writeFrom (List.replicate size 0) 0 toFront) toFront.length
    ((List.range size).filter (fun j => !toFront.contains j))

/-- The final value of `nextVar` in `PullToFront`: `toFront.size()` plus
the number of unpulled ids below `size`. -/
def pullToFrontNextVar (toFront : List Nat) (size : Nat) : Nat :=
  toFront.length + ((List.range size).filter (fun j => !toFront.contains j)).length

/-- `PullToFront` with its `assert(nextVar == size)` modelled as a check:
`none` when the assertion fails (the C++ aborts there). -/
def PullToFrontChecked (toFront : List Nat) (size : Nat) : Option Permutation :=
  if pullToFrontNextVar toFront size = size then some (PullToFront toFront size)
  else none

/-- `Permutation::PushToBack(toBack, size)`: the first loop writes
`ret[nextVar++] = toBack[j]` starting from `nextVar = size - toBack.size()`
and marks the mask `pushed` at the values of `toBack`; the second loop
writes the unpushed ids, ascending, at `ret[0], ret[1], …`. -/
def PushToBack (toBack : List Nat) (size : Nat) : Permutation :=
  writeFrom (writeFrom (List.replicate size 0) (size - toBack.length) toBack) 0
    ((List.range size).filter (fun j => !toBack.contains j))

/-- `Permutation::permute(permutation)`:
`result[j] = (*this)[permutation[j]]` for `j < permutation.size()`. -/
def permute (p other : Permutation) : Permutation :=
  other.map (fun j => p.getD j 0)

/-- `Permutation::inverse()`: `result[(*this)[i]] = i` for `i < size()`,
into a fresh vector of length `size()` (unwritten slots modelled as 0). -/
def inverse (p : Permutation) : Permutation :=
  writeLoop (List.replicate p.length 0) (fun i => p.getD i 0) (fun i => i) p.length

/-- `Permutation::partialPermutation(selector, partialPermutation)` — the
spec's `partialApply`: starting from a copy of `*this`, the loop writes
`result[selector[j]] = (*this)[selector[partialPermutation[j]]]`
for `j < selector.size()`. -/
def partialApply (p selector sub : Permutation) : Permutation :=
  writeLoop p (fun j => selector.getD j 0)
    (fun j => p.getD (selector.getD (sub.getD j 0) 0) 0) selector.length

end Permutation

/-- The bijection invariant: an ordered sequence of length `n` whose values
are exactly the set `\x7b0, …, n-1\x7d`. -/
def isPermutation (p : Permutation) (n : Nat) : Prop :=
  p.length = n ∧ (∀ i < n, i ∈ p) ∧ (∀ v ∈ p, v < n)

instance (p : Permutation) (n : Nat) : Decidable (isPermutation p n) := by
  unfold isPermutation; infer_instance

/-! ## VariableSlots (VariableSlots.cpp)

`VariableSlots` derives from `std::map<Index, std::vector<Index>>`, iterated
in ascending key order; it is modelled as the association list of
(variable id, per-factor slot vector) pairs in that order. -/

/-- `numeric_limits<Index>::max()` for the 64-bit `size_t` `Index`: the
sentinel meaning "variable absent from this factor". -/
def Index.sentinel : Nat := 2 ^ 64 - 1

/-- The `VariableSlots` table in its iteration order. -/
abbrev VariableSlots := List (Nat × List Nat)

/-- One rendered cell of `VariableSlots::print`: the absent sentinel prints
the marker `x`, any other entry prints as its numeral. -/
def renderSlot (v : Nat) : String :=
  if v = Index.sentinel then "x" else toString v

/-- The header line of `VariableSlots::print`: one entry per variable
(`slot.first` for each `slot` in the map). -/
def headerRow (vs : VariableSlots) : List String :=
  vs.map (fun slot => toString slot.1)

/-- The data rows of `VariableSlots::print`: one row per
`i < this->begin()->second.size()` (the factor count), holding, for each
variable in table order, the rendered entry `slot.second[i]`. -/
def dataRows (vs : VariableSlots) : List (List String) :=
  (List.range ((vs.headD (0, [])).2.length)).map
    (fun i => vs.map (fun slot => renderSlot (slot.2.getD i 0)))

/-- `VariableSlots::print(str)` assembled into the output text: `empty` for
an empty table, otherwise `str`, the header line, and the data rows, with
tab-separated cells. -/
def printString (vs : VariableSlots) (str : String) : String :=
  if vs.isEmpty then "empty\n"
  else
    str ++ "\n" ++ "Var:\t"
      ++ String.join ((headerRow vs).map (fun c => c ++ "\t")) ++ "\n"
      ++ String.join ((dataRows vs).map
          (fun row => "    \t" ++ String.join (row.map (fun c => c ++ "\t")) ++ "\n"))

/-- `VariableSlots::equals(rhs, tol)` is `return *this == rhs;` — `tol` is
accepted (a `double`, modelled as `ℚ`) but never read. -/
def VariableSlots.equals (a b : VariableSlots) (_tol : ℚ) : Bool := a == b

/-! ## Inference::Marginal (inference.h)

`Inference::Marginal` is only declared in the excerpted source; its
algorithm is modelled from the spec (§4.4): compute a
`PushToBack(variables, n)` permutation, relabel the graph through it,
eliminate the first `n - k` positions with `EliminateUntil` in ascending
natural order, and relabel the residual graph back through the
permutation.  Factors are modelled symbolically by their scopes. -/

/-- A factor, modelled by its scope: the list of variable ids it mentions. -/
abbrev Factor := List Nat

/-- A factor graph: the list of its factors' scopes. -/
abbrev FactorGraph := List Factor

/-- Modelled from the spec: `EliminateOne(graph, index, v)` — look up the
factors touching `v`, combine them, remove them from the graph, and append
the separator factor (the union of their scopes minus `v`) when it is
non-empty.  The conditional on `v` is not needed for `Marginal`; a
variable touched by no factors leaves the graph unchanged (the spec flags
that corner as an open policy question). -/
def eliminateOne (graph : FactorGraph) (v : Nat) : FactorGraph :=
  let touching := graph.filter (fun f => f.contains v)
  let rest := graph.filter (fun f => !f.contains v)
  let separator := ((touching.flatten).filter (fun u => u != v)).dedup
  if separator.isEmpty then rest else rest ++ [separator]

/-- Modelled from the spec: `EliminateUntil(graph, bound)` eliminates
variables `0..bound-1` in ascending natural order. -/
def eliminateUntil (graph : FactorGraph) (bound : Nat) : FactorGraph :=
  (List.range bound).foldl eliminateOne graph

/-- Relabelling every variable reference of a graph through `f`. -/
def relabelGraph (f : Nat → Nat) (graph : FactorGraph) : FactorGraph :=
  graph.map (fun fac => fac.map f)

/-- Modelled from the spec: `Inference::Marginal(graph, variables)` over a
graph on `n` variables — push `variables` to the back
(`p = PushToBack(variables, n)`), relabel each original id `v` to its
elimination position (the position of `v` in `p`), eliminate the first
`n - k` positions, and relabel the residual back through `p`, restoring
the original ids. -/
def Marginal (graph : FactorGraph) (vars : List Nat) (n : Nat) :
    FactorGraph :=
  let p := Permutation.PushToBack vars n
  let relabeled := relabelGraph (fun v => p.indexOf v) graph
  let residual := eliminateUntil relabeled (n - vars.length)
  relabelGraph (fun i => p.getD i 0) residual

/-- All scopes of the graph lie in the id interval `[lo, hi)`. -/
def scopesWithin (graph : FactorGraph) (lo hi : Nat) : Prop :=
  ∀ f ∈ graph, ∀ u ∈ f, lo ≤ u ∧ u < hi

/-! ## ImuFactorBase (ImuFactorBase.h)

The numeric payload (3-vectors, 3×3 matrices, rotations, poses) of
`ImuFactorBase::predict` is kept parametric: `NavOps` bundles exactly the
operations the source uses, so the data flow of `predict` is preserved
while the floating-point arithmetic stays abstract. -/

/-- `imuBias::ConstantBias`: accelerometer and gyroscope components. -/
structure ConstantBias (V : Type) where
  accelerometer : V
  gyroscope : V

/-- `PoseVelocityBias`: all state variables returned by `predict`. -/
structure PoseVelocityBias (P V B : Type) where
  pose : P
  velocity : V
  bias : B

/-- The vector (`V`), matrix (`M`), rotation (`R`), pose (`P`) and scalar
(`S`) operations used by `predict`. -/
structure NavOps (S V M R P : Type) where
  vadd : V → V → V
  vsub : V → V → V
  smul : S → V → V
  mvmul : M → V → V
  mmmul : M → M → M
  sMul : S → S → S
  half : S
  two : S
  skewSymmetric : V → M
  rotMatrix : R → M
  rotInverse : R → R
  rotCompose : R → R → R
  rotExpmap : V → R
  rotLogmap : R → V
  poseRotation : P → R
  poseTranslation : P → V
  mkPose : R → V → P

/-- The members of `PreintegrationBase` read by `predict`. -/
structure PreintegrationBase (S V M R : Type) where
  deltaTij : S
  biasHat : ConstantBias V
  deltaPij : V
  deltaVij : V
  delPdelBiasAcc : M
  delPdelBiasOmega : M
  delVdelBiasAcc : M
  delVdelBiasOmega : M
  biascorrectedDeltaRij : V → R

/-- `ImuFactorBase::predict(pose_i, vel_i, bias_i, _PIM, gravity,
omegaCoriolis, use2ndOrderCoriolis)`, line for line: the position and
velocity updates (with their optional second-order Coriolis terms), the
bias-corrected and Coriolis-corrected rotation update, and the final
`PoseVelocityBias(pose_j, vel_j, bias_i)` — "bias is predicted as a
constant". -/
def ImuFactorBase.predict {S V M R P : Type} (ops : NavOps S V M R P)
    (pose_i : P) (vel_i : V) (bias_i : ConstantBias V)
    (pim : PreintegrationBase S V M R)
    (gravity omegaCoriolis : V) (use2ndOrderCoriolis : Bool) :
    PoseVelocityBias P V (ConstantBias V) :=
  let deltaTij := pim.deltaTij
  let biasAccIncr := ops.vsub bias_i.accelerometer pim.biasHat.accelerometer
  let biasOmegaIncr := ops.vsub bias_i.gyroscope pim.biasHat.gyroscope
  let Rot_i := ops.poseRotation pose_i
  let pos_i := ops.poseTranslation pose_i
  let pos_j :=
    ops.vadd
      (ops.vsub
        (ops.vadd
          (ops.vadd pos_i
            (ops.mvmul (ops.rotMatrix Rot_i)
              (ops.vadd (ops.vadd pim.deltaPij
                (ops.mvmul pim.delPdelBiasAcc biasAccIncr))
                (ops.mvmul pim.delPdelBiasOmega biasOmegaIncr))))
          (ops.smul deltaTij vel_i))
        (ops.smul (ops.sMul deltaTij deltaTij)
          (ops.mvmul (ops.skewSymmetric omegaCoriolis) vel_i)))
      (ops.smul (ops.sMul ops.half (ops.sMul deltaTij deltaTij)) gravity)
  let vel_j :=
    ops.vadd
      (ops.vsub
        (ops.vadd vel_i
          (ops.mvmul (ops.rotMatrix Rot_i)
            (ops.vadd (ops.vadd pim.deltaVij
              (ops.mvmul pim.delVdelBiasAcc biasAccIncr))
              (ops.mvmul pim.delVdelBiasOmega biasOmegaIncr))))
        (ops.smul (ops.sMul ops.two deltaTij)
          (ops.mvmul (ops.skewSymmetric omegaCoriolis) vel_i)))
      (ops.smul deltaTij gravity)
  let pos_j := if use2ndOrderCoriolis then
      ops.vsub pos_j (ops.smul (ops.sMul ops.half (ops.sMul deltaTij deltaTij))
        (ops.mvmul (ops.mmmul (ops.skewSymmetric omegaCoriolis)
          (ops.skewSymmetric omegaCoriolis)) pos_i))
    else pos_j
  let vel_j := if use2ndOrderCoriolis then
      ops.vsub vel_j (ops.smul deltaTij
        (ops.mvmul (ops.mmmul (ops.skewSymmetric omegaCoriolis)
          (ops.skewSymmetric omegaCoriolis)) pos_i))
    else vel_j
  let deltaRij_biascorrected := pim.biascorrectedDeltaRij biasOmegaIncr
  let theta_biascorrected := ops.rotLogmap deltaRij_biascorrected
  let theta_biascorrected_corioliscorrected :=
    ops.vsub theta_biascorrected
      (ops.smul deltaTij
        (ops.mvmul (ops.rotMatrix (ops.rotInverse Rot_i)) omegaCoriolis))
  let deltaRij_biascorrected_corioliscorrected :=
    ops.rotExpmap theta_biascorrected_corioliscorrected
  let Rot_j := ops.rotCompose Rot_i deltaRij_biascorrected_corioliscorrected
  let pose_j := ops.mkPose Rot_j pos_j
  ⟨pose_j, vel_j, bias_i⟩

/-- In-bounds sequential writes overwrite the slice starting at `s`. -/
theorem writeFrom_eq : ∀ (xs : List Nat) (r : List Nat) (s : Nat),
    s + xs.length ≤ r.length →
    writeFrom r s xs = r.take s ++ xs ++ r.drop (s + xs.length)
  | [], r, s, _ => by simp [writeFrom]
  | x :: xs, r, s, h => by
    have hs : s < r.length := by simp at h; omega
    have hlen : s + 1 + xs.length ≤ (r.set s x).length := by simp at h ⊢; omega
    have hts : (r.take s).length = s := by simp; omega
    have h4 : (r.set s x).take (s + 1) = r.take s ++ [x] := by
      rw [List.set_eq_take_cons_drop x hs]
      have hh : s + 1 = (r.take s).length + 1 := by omega
      rw [hh, List.take_append]
      simp
    have h5 : (r.set s x).drop (s + 1 + xs.length) = r.drop (s + (xs.length + 1)) := by
      rw [List.set_eq_take_cons_drop x hs]
      have hh : s + 1 + xs.length = (r.take s).length + (1 + xs.length) := by omega
      rw [hh, List.drop_append]
      have hh2 : 1 + xs.length = xs.length + 1 := by omega
      rw [hh2, List.drop_succ_cons, List.drop_drop]
      congr 1
      omega
    rw [writeFrom, writeFrom_eq xs (r.set s x) (s + 1) hlen, h4, h5]
    simp

/-- Length is preserved by sequential writes. -/
theorem writeFrom_length : ∀ (xs : List Nat) (r : List Nat) (s : Nat),
    (writeFrom r s xs).length = r.length
  | [], _, _ => rfl
  | _ :: xs, r, s => by
    rw [writeFrom, writeFrom_length xs]; simp

/-- The ids of `[0,n)` occurring in a duplicate-free in-range `t` are a
rearrangement of `t`. -/
theorem perm_filter_contains {t : List Nat} {n : Nat} (hnd : t.Nodup)
    (hlt : ∀ v ∈ t, v < n) :
    List.Perm ((List.range n).filter (fun j => t.contains j)) t := by
  refine (List.perm_ext_iff_of_nodup (List.Nodup.filter _ (List.nodup_range n)) hnd).mpr ?_
  intro a
  simp only [List.mem_filter, List.mem_range, List.contains, List.elem_eq_mem,
    decide_eq_true_eq]
  exact ⟨fun hh => hh.2, fun ha => ⟨hlt a ha, ha⟩⟩

/-- Splitting `[0,n)` by membership in `t` counts `n` ids in total. -/
theorem length_filter_split (t : List Nat) (n : Nat) :
    ((List.range n).filter (fun j => t.contains j)).length +
      ((List.range n).filter (fun j => !t.contains j)).length = n := by
  have htot := List.Perm.length_eq
    (List.filter_append_perm (fun j => t.contains j) (List.range n))
  rw [List.length_append, List.length_range] at htot
  exact htot

/-- The ids of `[0,n)` not occurring in `t` number `n - t.length` whenever
`t` is duplicate-free with all entries below `n`. -/
theorem length_filter_not_contains {t : List Nat} {n : Nat} (hnd : t.Nodup)
    (hlt : ∀ v ∈ t, v < n) :
    ((List.range n).filter (fun j => !t.contains j)).length = n - t.length := by
  have hperm := perm_filter_contains hnd hlt
  have htot := length_filter_split t n
  rw [hperm.length_eq] at htot
  omega

/-- `t.length ≤ n` for duplicate-free `t` with entries below `n`. -/
theorem length_le_of_nodup_lt {t : List Nat} {n : Nat} (hnd : t.Nodup)
    (hlt : ∀ v ∈ t, v < n) : t.length ≤ n := by
  have := List.Subperm.length_le
    (List.subperm_of_subset hnd (fun v hv => List.mem_range.mpr (hlt v hv)))
  simpa using this

/-- Under its precondition, `PullToFront` lays out the targets followed by
the remaining ids in ascending order. -/
theorem pullToFront_eq {t : List Nat} {n : Nat} (hnd : t.Nodup)
    (hlt : ∀ v ∈ t, v < n) :
    Permutation.PullToFront t n =
      t ++ (List.range n).filter (fun j => !t.contains j) := by
  have hk : t.length ≤ n := length_le_of_nodup_lt hnd hlt
  have hfl := length_filter_not_contains hnd hlt
  unfold Permutation.PullToFront
  set F := (List.range n).filter (fun j => !t.contains j) with hF
  rw [writeFrom_eq t (List.replicate n 0) 0 (by simpa using hk)]
  simp only [List.take_zero, List.nil_append, Nat.zero_add]
  set R := (List.replicate n (0 : Nat)).drop t.length with hR
  have hRlen : R.length = n - t.length := by rw [hR]; simp
  rw [writeFrom_eq F (t ++ R) t.length
    (by rw [List.length_append, hRlen, hfl])]
  rw [List.take_left' rfl]
  have hdrop : (t ++ R).drop (t.length + F.length) = [] :=
    List.drop_of_length_le (by rw [List.length_append, hRlen, hfl])
  rw [hdrop, List.append_nil]

/-- Under its precondition, `PushToBack` lays out the remaining ids in
ascending order followed by the targets. -/
theorem pushToBack_eq {t : List Nat} {n : Nat} (hnd : t.Nodup)
    (hlt : ∀ v ∈ t, v < n) :
    Permutation.PushToBack t n =
      (List.range n).filter (fun j => !t.contains j) ++ t := by
  have hk : t.length ≤ n := length_le_of_nodup_lt hnd hlt
  have hfl := length_filter_not_contains hnd hlt
  unfold Permutation.PushToBack
  set F := (List.range n).filter (fun j => !t.contains j) with hF
  rw [writeFrom_eq t (List.replicate n 0) (n - t.length) (by simp; omega)]
  have htake : (List.replicate n (0 : Nat)).take (n - t.length) =
      List.replicate (n - t.length) (0 : Nat) := by
    rw [List.take_replicate]; congr 1; omega
  have hsum : n - t.length + t.length = n := by omega
  rw [htake, hsum, List.drop_of_length_le (by simp), List.append_nil]
  rw [writeFrom_eq F _ 0 (by rw [List.length_append, List.length_replicate, hfl]; omega)]
  simp only [List.take_zero, List.nil_append, Nat.zero_add]
  rw [hfl]
  rw [List.drop_append_of_le_length (by simp [hfl])]
  rw [List.drop_of_length_le (by simp), List.nil_append]

/-- Reading a defaulted element away from a write is unchanged. -/
theorem getD_set_ne (l : List Nat) (i j : Nat) (a : Nat) (h : i ≠ j) :
    (l.set i a).getD j 0 = l.getD j 0 := by
  simp [List.getElem?_set_ne h]

/-- Reading a defaulted element back from an in-bounds write. -/
theorem getD_set_self (l : List Nat) (i : Nat) (a : Nat) (h : i < l.length) :
    (l.set i a).getD i 0 = a := by
  simp [List.getElem?_set_self h]

/-- The members of a list at in-bounds defaulted reads are members. -/
theorem getD_mem {l : List Nat} {i : Nat} (h : i < l.length) :
    l.getD i 0 ∈ l := by
  rw [List.getD_eq_getElem _ _ h]
  exact List.getElem_mem h

/-- Peeling the last iteration off a write loop. -/
theorem writeLoop_succ (r : List Nat) (f g : Nat → Nat) (m : Nat) :
    writeLoop r f g (m + 1) = (writeLoop r f g m).set (f m) (g m) := by
  unfold writeLoop
  rw [List.range_succ, List.foldl_append]
  rfl

/-- A write loop preserves the length of the vector. -/
theorem writeLoop_length (r : List Nat) (f g : Nat → Nat) :
    ∀ m, (writeLoop r f g m).length = r.length
  | 0 => rfl
  | m + 1 => by rw [writeLoop_succ, List.length_set, writeLoop_length r f g m]

/-- Positions never written keep their initial contents. -/
theorem writeLoop_getD_of_not_hit {r : List Nat} {f g : Nat → Nat} {x : Nat} :
    ∀ {m}, (∀ j < m, f j ≠ x) → (writeLoop r f g m).getD x 0 = r.getD x 0 := by
  intro m
  induction m with
  | zero => intro _; rfl
  | succ m ih =>
    intro h
    rw [writeLoop_succ, getD_set_ne _ _ _ _ (h m (by omega))]
    exact ih (fun j hj => h j (by omega))

/-- The final contents at a written position is the last write there. -/
theorem writeLoop_getD_hit {r : List Nat} {f g : Nat → Nat} {m j : Nat}
    (hj : j < m) (hlater : ∀ j', j < j' → j' < m → f j' ≠ f j)
    (hfj : f j < r.length) :
    (writeLoop r f g m).getD (f j) 0 = g j := by
  induction m with
  | zero => omega
  | succ m ih =>
    rw [writeLoop_succ]
    by_cases hcase : j = m
    · subst hcase
      exact getD_set_self _ _ _ (by rw [writeLoop_length]; exact hfj)
    · have hne : f m ≠ f j := hlater m (by omega) (by omega)
      rw [getD_set_ne _ _ _ _ hne]
      exact ih (by omega) (fun j' h1 h2 => hlater j' h1 (by omega))

/-- Every value in the result of a write loop is an initial value or a
written value. -/
theorem writeLoop_mem {r : List Nat} {f g : Nat → Nat} :
    ∀ {m} {v}, v ∈ writeLoop r f g m → v ∈ r ∨ ∃ j < m, v = g j := by
  intro m
  induction m with
  | zero => intro _ hv; exact Or.inl hv
  | succ m ih =>
    intro v hv
    rw [writeLoop_succ] at hv
    rcases List.mem_or_eq_of_mem_set hv with hmem | hval
    · rcases ih hmem with h | ⟨j, hj, hvj⟩
      · exact Or.inl h
      · exact Or.inr ⟨j, by omega, hvj⟩
    · exact Or.inr ⟨m, by omega, hval⟩

/-- A sequence of length `n` containing every id below `n` is a permutation
of `[0, …, n-1]`. -/
theorem perm_range_of_length_of_mem {p : Permutation} {n : Nat}
    (hlen : p.length = n) (hmem : ∀ i < n, i ∈ p) :
    List.Perm p (List.range n) := by
  obtain ⟨l, hl, hsl⟩ := List.subperm_of_subset (List.nodup_range n)
    (fun i hi => hmem i (List.mem_range.mp hi))
  have heq : l = p :=
    hsl.eq_of_length (by rw [hl.length_eq, List.length_range, hlen])
  exact heq ▸ hl

/-- The bijection invariant follows from length and lower-set membership. -/
theorem isPermutation_of_length_of_mem {p : Permutation} {n : Nat}
    (hlen : p.length = n) (hmem : ∀ i < n, i ∈ p) : isPermutation p n :=
  ⟨hlen, hmem, fun _ hv => List.mem_range.mp
    ((perm_range_of_length_of_mem hlen hmem).mem_iff.mp hv)⟩

/-- The bijection invariant also follows from being a permutation of the
range. -/
theorem isPermutation_of_perm_range {p : Permutation} {n : Nat}
    (h : List.Perm p (List.range n)) : isPermutation p n :=
  ⟨by rw [h.length_eq, List.length_range],
    fun i hi => h.mem_iff.mpr (List.mem_range.mpr hi),
    fun v hv => List.mem_range.mp (h.mem_iff.mp hv)⟩

/-- A valid bijection is duplicate-free. -/
theorem nodup_of_isPermutation {p : Permutation} {n : Nat}
    (h : isPermutation p n) : p.Nodup :=
  ((perm_range_of_length_of_mem h.1 h.2.1).symm.nodup (List.nodup_range n))

/-- Reading a valid bijection at distinct positions gives distinct values. -/
theorem getD_inj_of_isPermutation {p : Permutation} {n : Nat}
    (h : isPermutation p n) {i i' : Nat} (hi : i < n) (hi' : i' < n)
    (heq : p.getD i 0 = p.getD i' 0) : i = i' := by
  have hnd := nodup_of_isPermutation h
  have h1 : i < p.length := by rw [h.1]; exact hi
  have h2 : i' < p.length := by rw [h.1]; exact hi'
  rw [List.getD_eq_getElem _ _ h1, List.getD_eq_getElem _ _ h2] at heq
  exact (hnd.getElem_inj_iff).mp heq

/-- A valid bijection attains every id below `n` at some position. -/
theorem surj_of_isPermutation {p : Permutation} {n : Nat}
    (h : isPermutation p n) {j : Nat} (hj : j < n) :
    ∃ i < n, p.getD i 0 = j := by
  obtain ⟨k, hk, hkj⟩ := List.getElem_of_mem (h.2.1 j hj)
  exact ⟨k, by rw [← h.1]; exact hk, by rw [List.getD_eq_getElem _ _ hk]; exact hkj⟩

/-- Values of a valid bijection are below `n`. -/
theorem getD_lt_of_isPermutation {p : Permutation} {n : Nat}
    (h : isPermutation p n) {i : Nat} (hi : i < n) : p.getD i 0 < n :=
  h.2.2 _ (getD_mem (by rw [h.1]; exact hi))

/-- `inverse` returns a vector of the same length. -/
theorem inverse_length (p : Permutation) :
    (Permutation.inverse p).length = p.length := by
  unfold Permutation.inverse
  rw [writeLoop_length, List.length_replicate]

/-- `inverse` inverts a valid bijection: `inverse(p)[p[i]] = i`. -/
theorem inverse_getD {p : Permutation} {n : Nat} (h : isPermutation p n)
    {i : Nat} (hi : i < n) :
    (Permutation.inverse p).getD (p.getD i 0) 0 = i := by
  have hlen : p.length = n := h.1
  unfold Permutation.inverse
  refine writeLoop_getD_hit (by omega : i < p.length) ?_ ?_
  · intro j' h1 h2 heq
    have := getD_inj_of_isPermutation h (by omega) hi heq
    omega
  · rw [List.length_replicate, hlen]
    exact getD_lt_of_isPermutation h hi

/-- `inverse` of a valid bijection is a valid bijection. -/
theorem isPermutation_inverse {p : Permutation} {n : Nat}
    (h : isPermutation p n) : isPermutation (Permutation.inverse p) n := by
  apply isPermutation_of_length_of_mem
  · rw [inverse_length, h.1]
  · intro i hi
    have hpi : p.getD i 0 < n := getD_lt_of_isPermutation h hi
    have hpos : p.getD i 0 < (Permutation.inverse p).length := by
      rw [inverse_length, h.1]; exact hpi
    have hmem := getD_mem hpos
    rw [inverse_getD h hi] at hmem
    exact hmem

/-- Under the precondition, `PullToFront` is a rearrangement of `[0,n)`. -/
theorem pullToFront_perm_range {t : List Nat} {n : Nat} (hnd : t.Nodup)
    (hlt : ∀ v ∈ t, v < n) :
    List.Perm (Permutation.PullToFront t n) (List.range n) := by
  rw [pullToFront_eq hnd hlt]
  exact (((perm_filter_contains hnd hlt).symm.append_right _).trans
    (List.filter_append_perm _ _))

/-- Under the precondition, `PushToBack` is a rearrangement of `[0,n)`. -/
theorem pushToBack_perm_range {t : List Nat} {n : Nat} (hnd : t.Nodup)
    (hlt : ∀ v ∈ t, v < n) :
    List.Perm (Permutation.PushToBack t n) (List.range n) := by
  rw [pushToBack_eq hnd hlt]
  exact (List.perm_append_comm.trans
    (((perm_filter_contains hnd hlt).symm.append_right _).trans
      (List.filter_append_perm _ _)))

/-- C1: every `Permutation` produced by the public constructors and
operations — `Identity(n)`, `PullToFront(targets, n)` and
`PushToBack(targets, n)` on duplicate-free targets below `n`,
`permute` of two valid bijections of size `n`, and `inverse()` of a valid
bijection — is a sequence of length `n` whose values are exactly the set
`\x7b0, …, n-1\x7d`. -/
theorem constructors_preserve_bijection {n : Nat} (t p q : List Nat)
    (hnd : t.Nodup) (hlt : ∀ v ∈ t, v < n)
    (hp : isPermutation p n) (hq : isPermutation q n) :
    isPermutation (Permutation.Identity n) n ∧
    isPermutation (Permutation.PullToFront t n) n ∧
    isPermutation (Permutation.PushToBack t n) n ∧
    isPermutation (Permutation.permute p q) n ∧
    isPermutation (Permutation.inverse p) n := by
  refine ⟨?_, ?_, ?_, ?_, isPermutation_inverse hp⟩
  · exact isPermutation_of_perm_range (List.Perm.refl _)
  · exact isPermutation_of_perm_range (pullToFront_perm_range hnd hlt)
  · exact isPermutation_of_perm_range (pushToBack_perm_range hnd hlt)
  · apply isPermutation_of_length_of_mem
    · unfold Permutation.permute
      rw [List.length_map, hq.1]
    · intro i hi
      obtain ⟨i0, hi0, hpi0⟩ := surj_of_isPermutation hp hi
      unfold Permutation.permute
      rw [List.mem_map]
      exact ⟨i0, hq.2.1 i0 hi0, hpi0⟩

/-- C1 witness at `n = 4`, `targets = [2,0]`, `p = [2,0,1,3]`,
`q = [1,3,2,0]`. -/
theorem constructors_preserve_bijection_witness :
    isPermutation (Permutation.Identity 4) 4 ∧
    isPermutation (Permutation.PullToFront [2, 0] 4) 4 ∧
    isPermutation (Permutation.PushToBack [2, 0] 4) 4 ∧
    isPermutation (Permutation.permute [2, 0, 1, 3] [1, 3, 2, 0]) 4 ∧
    isPermutation (Permutation.inverse [2, 0, 1, 3]) 4 :=
  constructors_preserve_bijection [2, 0] [2, 0, 1, 3] [1, 3, 2, 0]
    (by decide) (by decide) (by decide) (by decide)

/-- C2: for duplicate-free targets below `n`, `PullToFront(targets, n)`
puts `targets[j]` at position `j` and fills positions `k..n-1` with the
remaining ids in ascending order; in particular
`PullToFront([2,0], 4) = [2,0,1,3]`. -/
theorem pullToFront_targets_first {t : List Nat} {n : Nat}
    (hnd : t.Nodup) (hlt : ∀ v ∈ t, v < n) :
    (∀ j < t.length, (Permutation.PullToFront t n).getD j 0 = t.getD j 0) ∧
    (Permutation.PullToFront t n).drop t.length
      = (List.range n).filter (fun j => !t.contains j) ∧
    Permutation.PullToFront [2, 0] 4 = [2, 0, 1, 3] := by
  refine ⟨?_, ?_, by decide⟩
  · intro j hj
    rw [pullToFront_eq hnd hlt]
    simp [List.getElem?_append_left (show j < t.length from hj)]
  · rw [pullToFront_eq hnd hlt, List.drop_left]

/-- C2 witness at `targets = [2,0]`, `n = 4`. -/
theorem pullToFront_targets_first_witness :
    (∀ j < 2, (Permutation.PullToFront [2, 0] 4).getD j 0
      = ([2, 0] : List Nat).getD j 0) ∧
    (Permutation.PullToFront [2, 0] 4).drop 2
      = (List.range 4).filter (fun j => !([2, 0] : List Nat).contains j) ∧
    Permutation.PullToFront [2, 0] 4 = [2, 0, 1, 3] :=
  @pullToFront_targets_first [2, 0] 4 (by decide) (by decide)

/-- C3: for duplicate-free targets below `n`, `PushToBack(targets, n)` puts
`targets[j]` at position `n-k+j` and fills positions `0..n-k-1` with the
remaining ids in ascending order; in particular
`PushToBack([2,0], 4) = [1,3,2,0]`. -/
theorem pushToBack_targets_last {t : List Nat} {n : Nat}
    (hnd : t.Nodup) (hlt : ∀ v ∈ t, v < n) :
    (∀ j < t.length,
      (Permutation.PushToBack t n).getD (n - t.length + j) 0 = t.getD j 0) ∧
    (Permutation.PushToBack t n).take (n - t.length)
      = (List.range n).filter (fun j => !t.contains j) ∧
    Permutation.PushToBack [2, 0] 4 = [1, 3, 2, 0] := by
  have hfl := length_filter_not_contains hnd hlt
  refine ⟨?_, ?_, by decide⟩
  · intro j hj
    rw [pushToBack_eq hnd hlt]
    have hge : ((List.range n).filter (fun j => !t.contains j)).length
        ≤ n - t.length + j := by omega
    simp only [List.getD_eq_getElem?_getD, List.getElem?_append_right hge, hfl]
    have harith : n - t.length + j - (n - t.length) = j := by omega
    rw [harith]
  · rw [pushToBack_eq hnd hlt, List.take_left' hfl]

/-- C3 witness at `targets = [2,0]`, `n = 4`. -/
theorem pushToBack_targets_last_witness :
    (∀ j < 2, (Permutation.PushToBack [2, 0] 4).getD (2 + j) 0
      = ([2, 0] : List Nat).getD j 0) ∧
    (Permutation.PushToBack [2, 0] 4).take 2
      = (List.range 4).filter (fun j => !([2, 0] : List Nat).contains j) ∧
    Permutation.PushToBack [2, 0] 4 = [1, 3, 2, 0] :=
  @pushToBack_targets_last [2, 0] 4 (by decide) (by decide)

/-- C4: for every valid bijection `p` of size `n`,
`p.permute(p.inverse()) = Identity(n)`, `p.inverse().inverse() = p`, and
`Identity(n).permute(Identity(n)) = Identity(n)`. -/
theorem compose_inverse_roundTrip {p : Permutation} {n : Nat}
    (hp : isPermutation p n) :
    Permutation.permute p (Permutation.inverse p) = Permutation.Identity n ∧
    Permutation.inverse (Permutation.inverse p) = p ∧
    Permutation.permute (Permutation.Identity n) (Permutation.Identity n)
      = Permutation.Identity n := by
  have hinv := isPermutation_inverse hp
  refine ⟨?_, ?_, ?_⟩
  · apply List.ext_getElem
    · unfold Permutation.permute Permutation.Identity
      rw [List.length_map, inverse_length, hp.1, List.length_range]
    · intro i h1 h2
      unfold Permutation.permute Permutation.Identity
      rw [List.getElem_map, List.getElem_range]
      have hi : i < n := by
        unfold Permutation.Identity at h2
        simpa using h2
      have hlen1 : i < (Permutation.inverse p).length := by
        rw [inverse_length, hp.1]; exact hi
      rw [← List.getD_eq_getElem (Permutation.inverse p) 0 hlen1]
      obtain ⟨i0, hi0, hpi0⟩ := surj_of_isPermutation hp hi
      rw [← hpi0, inverse_getD hp hi0]
  · apply List.ext_getElem
    · rw [inverse_length, inverse_length]
    · intro i h1 h2
      have hi : i < n := by rw [← hp.1]; exact h2
      have hplt : p.getD i 0 < n := getD_lt_of_isPermutation hp hi
      have hgoal : (Permutation.inverse (Permutation.inverse p)).getD i 0
          = p.getD i 0 := by
        conv_lhs => rw [← inverse_getD hp hi]
        exact inverse_getD hinv hplt
      rw [← List.getD_eq_getElem _ 0 h1, ← List.getD_eq_getElem _ 0 h2]
      exact hgoal
  · apply List.ext_getElem
    · unfold Permutation.permute Permutation.Identity
      rw [List.length_map]
    · intro i h1 h2
      unfold Permutation.permute Permutation.Identity
      rw [List.getElem_map, List.getElem_range]
      have hi : i < n := by
        unfold Permutation.Identity at h2
        simpa using h2
      rw [List.getD_eq_getElem _ 0 (by simpa using hi), List.getElem_range]

/-- C4 witness at `p = [2,0,1,3]`, `n = 4`. -/
theorem compose_inverse_roundTrip_witness :
    Permutation.permute [2, 0, 1, 3]
      (Permutation.inverse [2, 0, 1, 3]) = Permutation.Identity 4 ∧
    Permutation.inverse (Permutation.inverse [2, 0, 1, 3]) = [2, 0, 1, 3] ∧
    Permutation.permute (Permutation.Identity 4) (Permutation.Identity 4)
      = Permutation.Identity 4 :=
  compose_inverse_roundTrip (by decide)

/-- C6: on a target list with a duplicate or an id `≥ n`, `PullToFront`
trips its `assert(nextVar == size)` contract check and aborts instead of
returning a permutation. -/
theorem pullToFront_invalid_aborts {t : List Nat} {n : Nat}
    (hbad : ¬ t.Nodup ∨ ∃ v ∈ t, n ≤ v) :
    Permutation.PullToFrontChecked t n = none := by
  unfold Permutation.PullToFrontChecked
  rw [if_neg]
  intro heq
  unfold Permutation.pullToFrontNextVar at heq
  have hsplit := length_filter_split t n
  have hCt : ((List.range n).filter (fun j => t.contains j)).length
      = t.length := by omega
  have hsub : ((List.range n).filter (fun j => t.contains j)) ⊆ t := by
    intro a ha
    have hmem := (List.mem_filter.mp ha).2
    simpa using hmem
  obtain ⟨l, hl, hsl⟩ := List.subperm_of_subset
    (List.Nodup.filter _ (List.nodup_range n)) hsub
  have hlt2 : l = t := hsl.eq_of_length (by rw [hl.length_eq, hCt])
  have hperm : List.Perm t ((List.range n).filter (fun j => t.contains j)) :=
    hlt2 ▸ hl
  rcases hbad with hdup | ⟨v, hv, hge⟩
  · exact hdup (hperm.symm.nodup (List.Nodup.filter _ (List.nodup_range n)))
  · have hvC := hperm.mem_iff.mp hv
    have := (List.mem_filter.mp hvC).1
    rw [List.mem_range] at this
    omega

/-- C6 witness: the duplicate list `[0,0]` with `n = 2` aborts. -/
theorem pullToFront_invalid_aborts_witness :
    (¬ ([0, 0] : List Nat).Nodup ∨ ∃ v ∈ ([0, 0] : List Nat), 2 ≤ v) ∧
    Permutation.PullToFrontChecked [0, 0] 2 = none :=
  ⟨Or.inl (by decide), pullToFront_invalid_aborts (Or.inl (by decide))⟩

/-- Duplicate-free lists have distinct defaulted reads at distinct
positions. -/
theorem getD_inj_of_nodup {l : List Nat} (h : l.Nodup) {i j : Nat}
    (hi : i < l.length) (hj : j < l.length) (heq : l.getD i 0 = l.getD j 0) :
    i = j := by
  rw [List.getD_eq_getElem _ _ hi, List.getD_eq_getElem _ _ hj] at heq
  exact h.getElem_inj_iff.mp heq

/-- C5 counterexample: with the valid bijection `p = [1,0,2]` of size 3,
`selector = [0,0,1]` and `sub = [2,0,1]` (equal lengths, all entries
below 3), the claimed equation `result[selector[j]] = p[selector[sub[j]]]`
already fails at `j = 0`: a later iteration overwrites position
`selector[0] = 0`. -/
theorem partialApply_claim_false :
    ¬ ((∀ j < 3, (Permutation.partialApply [1, 0, 2] [0, 0, 1] [2, 0, 1]).getD
          (([0, 0, 1] : List Nat).getD j 0) 0
        = ([1, 0, 2] : List Nat).getD
            (([0, 0, 1] : List Nat).getD
              (([2, 0, 1] : List Nat).getD j 0) 0) 0) ∧
      (∀ i < 3, i ∉ ([0, 0, 1] : List Nat) →
        (Permutation.partialApply [1, 0, 2] [0, 0, 1] [2, 0, 1]).getD i 0
          = ([1, 0, 2] : List Nat).getD i 0)) := by
  decide

/-- C5 (amended): for a valid bijection `p` of size `n` and equal-length
`selector` and `sub` with entries below `n`, where additionally `selector`
is duplicate-free, `partialPermutation` satisfies
`result[selector[j]] = p[selector[sub[j]]]` at every `j` and leaves every
position not named by `selector` unchanged. -/
theorem partialApply_frame {p selector sub : List Nat} {n : Nat}
    (hp : isPermutation p n) (hsel : selector.Nodup)
    (_hlen : selector.length = sub.length)
    (hsellt : ∀ v ∈ selector, v < n) (_hsublt : ∀ v ∈ sub, v < n) :
    (∀ j < selector.length,
      (Permutation.partialApply p selector sub).getD (selector.getD j 0) 0
        = p.getD (selector.getD (sub.getD j 0) 0) 0) ∧
    (∀ i < n, i ∉ selector →
      (Permutation.partialApply p selector sub).getD i 0 = p.getD i 0) := by
  constructor
  · intro j hj
    unfold Permutation.partialApply
    refine writeLoop_getD_hit hj ?_ ?_
    · intro j' h1 h2 heq
      have : j' = j := getD_inj_of_nodup hsel h2 hj heq
      omega
    · rw [hp.1]
      exact hsellt _ (getD_mem hj)
  · intro i hi hnotin
    unfold Permutation.partialApply
    apply writeLoop_getD_of_not_hit
    intro j hj heq
    exact hnotin (heq ▸ getD_mem hj)

/-- C7 counterexample: for the two-variable, one-factor table
`[(0, [0]), (1, [sentinel])]`, the rendered grid has one data row (per
factor) of two cells (per variable) — not, as claimed, one row per
variable with one cell per factor. -/
theorem variableSlots_print_claim_false :
    ¬ ((dataRows [(0, [0]), (1, [Index.sentinel])]).length = 2 ∧
      ∀ row ∈ dataRows [(0, [0]), (1, [Index.sentinel])], row.length = 1) := by
  decide

/-- C7 (amended): for a nonempty table whose slot vectors all have length
`m` (the factor count), `print` renders one data row per factor, each with
one cell per variable; a sentinel entry renders as the marker `x`, any
other entry as its numeral; an empty table prints `empty`. -/
theorem variableSlots_print_spec (vs : VariableSlots) (m : Nat)
    (hne : vs ≠ []) (hm : ∀ slot ∈ vs, slot.2.length = m) :
    dataRows vs = (List.range m).map
      (fun i => vs.map (fun slot => renderSlot (slot.2.getD i 0))) ∧
    (dataRows vs).length = m ∧
    (∀ row ∈ dataRows vs, row.length = vs.length) ∧
    renderSlot Index.sentinel = "x" ∧
    (∀ v : Nat, v ≠ Index.sentinel → renderSlot v = toString v) ∧
    (∀ s, printString [] s = "empty\n") := by
  have hhead : (vs.headD (0, [])).2.length = m := by
    cases vs with
    | nil => exact absurd rfl hne
    | cons a l => exact hm a (List.mem_cons_self a l)
  have hrows : dataRows vs = (List.range m).map
      (fun i => vs.map (fun slot => renderSlot (slot.2.getD i 0))) := by
    unfold dataRows
    rw [hhead]
  refine ⟨hrows, ?_, ?_, ?_, ?_, fun s => rfl⟩
  · rw [hrows, List.length_map, List.length_range]
  · intro row hrow
    rw [hrows] at hrow
    obtain ⟨i, _, hi⟩ := List.mem_map.mp hrow
    rw [← hi, List.length_map]
  · unfold renderSlot
    rw [if_pos rfl]
  · intro v hv
    unfold renderSlot
    rw [if_neg hv]

/-- C7 amended witness at the table `[(0, [0]), (1, [sentinel])]`,
`m = 1`. -/
theorem variableSlots_print_spec_witness :
    ([(0, [0]), (1, [Index.sentinel])] : VariableSlots) ≠ [] ∧
    ((dataRows [(0, [0]), (1, [Index.sentinel])]).length = 1 ∧
      ∀ row ∈ dataRows [(0, [0]), (1, [Index.sentinel])], row.length = 2) :=
  ⟨by decide,
    ((variableSlots_print_spec [(0, [0]), (1, [Index.sentinel])] 1
      (by decide) (by decide)).2.1),
    ((variableSlots_print_spec [(0, [0]), (1, [Index.sentinel])] 1
      (by decide) (by decide)).2.2.1)⟩

/-- C9: `VariableSlots::equals` ignores its tolerance argument entirely
and decides exact structural equality. -/
theorem variableSlots_equals_ignores_tol (a b : VariableSlots) (t1 t2 : ℚ) :
    VariableSlots.equals a b t1 = VariableSlots.equals a b t2 ∧
    (VariableSlots.equals a b t1 = true ↔ a = b) := by
  refine ⟨rfl, ?_⟩
  unfold VariableSlots.equals
  exact beq_iff_eq

/-- C5 amended witness at `p = [1,0,2]`, `selector = [2,0]`,
`sub = [1,0]`, `n = 3`. -/
theorem partialApply_frame_witness :
    ([2, 0] : List Nat).Nodup ∧
    ((∀ j < 2, (Permutation.partialApply [1, 0, 2] [2, 0] [1, 0]).getD
        (([2, 0] : List Nat).getD j 0) 0
      = ([1, 0, 2] : List Nat).getD
          (([2, 0] : List Nat).getD (([1, 0] : List Nat).getD j 0) 0) 0) ∧
     (∀ i < 3, i ∉ ([2, 0] : List Nat) →
      (Permutation.partialApply [1, 0, 2] [2, 0] [1, 0]).getD i 0
        = ([1, 0, 2] : List Nat).getD i 0)) :=
  ⟨by decide, @partialApply_frame [1, 0, 2] [2, 0] [1, 0] 3 (by decide)
    (by decide) (by decide) (by decide) (by decide)⟩

/-- Eliminating variable `b` from a graph whose scopes lie in `[b, hi)`
leaves all scopes in `[b+1, hi)`: the factors touching `b` are removed and
the separator excludes `b`. -/
theorem eliminateOne_scopesWithin {g : FactorGraph} {b hi : Nat}
    (h : scopesWithin g b hi) :
    scopesWithin (eliminateOne g b) (b + 1) hi := by
  intro f hf u hu
  simp only [eliminateOne] at hf
  have hrest : ∀ f0, f0 ∈ g.filter (fun f0 => !f0.contains b) → ∀ u0 ∈ f0,
      b + 1 ≤ u0 ∧ u0 < hi := by
    intro f0 hf0 u0 hu0
    have hmem := List.mem_filter.mp hf0
    have hin := h f0 hmem.1 u0 hu0
    have hne : u0 ≠ b := by
      intro heq
      subst heq
      have := hmem.2
      simp at this
      exact this hu0
    omega
  have hsep : ∀ u0 ∈ ((g.filter (fun f0 => f0.contains b)).flatten.filter
      (fun u0 => u0 != b)).dedup, b + 1 ≤ u0 ∧ u0 < hi := by
    intro u0 hu0
    rw [List.mem_dedup, List.mem_filter] at hu0
    obtain ⟨hjoin, hneq⟩ := hu0
    obtain ⟨f0, hf0, hu0f⟩ := List.mem_flatten.mp hjoin
    have hin := h f0 (List.mem_filter.mp hf0).1 u0 hu0f
    have hne : u0 ≠ b := by simpa using hneq
    omega
  split at hf
  · exact hrest f hf u hu
  · rcases List.mem_append.mp hf with hrf | hsf
    · exact hrest f hrf u hu
    · have : f = ((g.filter (fun f0 => f0.contains b)).flatten.filter
          (fun u0 => u0 != b)).dedup := by simpa using hsf
      exact hsep u (this ▸ hu)

/-- Peeling the last step off `eliminateUntil`. -/
theorem eliminateUntil_succ (g : FactorGraph) (b : Nat) :
    eliminateUntil g (b + 1) = eliminateOne (eliminateUntil g b) b := by
  unfold eliminateUntil
  rw [List.range_succ, List.foldl_append]
  rfl

/-- After eliminating variables `0..bound-1`, all remaining scopes lie in
`[bound, hi)`. -/
theorem eliminateUntil_scopesWithin {g : FactorGraph} {hi : Nat}
    (h : scopesWithin g 0 hi) :
    ∀ bound, scopesWithin (eliminateUntil g bound) bound hi
  | 0 => h
  | b + 1 => by
    rw [eliminateUntil_succ]
    exact eliminateOne_scopesWithin (eliminateUntil_scopesWithin h b)

/-- C8 (spec-modelled): every factor of `Marginal(graph, variables)`
mentions only the requested variables, with their original ids restored
through the permutation. -/
theorem marginal_scopes_subset {graph : FactorGraph} {vars : List Nat}
    {n : Nat} (hnd : vars.Nodup) (hlt : ∀ v ∈ vars, v < n)
    (hg : ∀ f ∈ graph, ∀ v ∈ f, v < n) :
    ∀ f ∈ Marginal graph vars n, ∀ v ∈ f, v ∈ vars := by
  have hk : vars.length ≤ n := length_le_of_nodup_lt hnd hlt
  have hp : isPermutation (Permutation.PushToBack vars n) n :=
    isPermutation_of_perm_range (pushToBack_perm_range hnd hlt)
  have hrel : scopesWithin (relabelGraph
      (fun v => (Permutation.PushToBack vars n).indexOf v) graph) 0 n := by
    intro f hf u hu
    unfold relabelGraph at hf
    obtain ⟨f0, hf0, rfl⟩ := List.mem_map.mp hf
    obtain ⟨v0, hv0, rfl⟩ := List.mem_map.mp hu
    refine ⟨Nat.zero_le _, ?_⟩
    have hv0n : v0 < n := hg f0 hf0 v0 hv0
    have hv0p : v0 ∈ Permutation.PushToBack vars n := hp.2.1 v0 hv0n
    have := List.indexOf_lt_length.mpr hv0p
    rw [hp.1] at this
    exact this
  have hres := eliminateUntil_scopesWithin hrel (n - vars.length)
  intro f hf v hv
  unfold Marginal at hf
  unfold relabelGraph at hf
  obtain ⟨f0, hf0, rfl⟩ := List.mem_map.mp hf
  obtain ⟨i, hi0, rfl⟩ := List.mem_map.mp hv
  have hibounds := hres f0 hf0 i hi0
  have hj : i - (n - vars.length) < vars.length := by omega
  have harith : n - vars.length + (i - (n - vars.length)) = i := by omega
  have := (pushToBack_targets_last hnd hlt).1 (i - (n - vars.length)) hj
  rw [harith] at this
  rw [this]
  exact getD_mem hj

/-- C8 witness at `graph = [[0,1],[1,2]]`, `variables = [2]`, `n = 3`. -/
theorem marginal_scopes_subset_witness :
    ([2] : List Nat).Nodup ∧
    (∀ f ∈ Marginal [[0, 1], [1, 2]] [2] 3, ∀ v ∈ f, v ∈ ([2] : List Nat)) :=
  ⟨by decide, @marginal_scopes_subset [[0, 1], [1, 2]] [2] 3
    (by decide) (by decide) (by decide)⟩

/-- C10: `ImuFactorBase::predict` propagates the bias unchanged — the
returned `PoseVelocityBias` carries exactly the input `bias_i`, whatever
the pose, velocity, preintegrated measurement, gravity, Coriolis rate and
second-order flag. -/
theorem predict_bias_unchanged {S V M R P : Type} (ops : NavOps S V M R P)
    (pose_i : P) (vel_i : V) (bias_i : ConstantBias V)
    (pim : PreintegrationBase S V M R) (gravity omegaCoriolis : V)
    (use2ndOrderCoriolis : Bool) :
    (ImuFactorBase.predict ops pose_i vel_i bias_i pim gravity omegaCoriolis
      use2ndOrderCoriolis).bias = bias_i := rfl

end gtsam
